import Mathlib

/-!
Shallow embedding of the multi-format loader/comparator
(`src/main.py`) and of the TOON step of the exporter
(`src/bd.py`, `exportar_todos`).

Python strings are modelled as `List Char`; Python `float` timings are
modelled as `ℚ`; a `None` field of a record is `Option.none`.  Calls
into external libraries (pandas CSV/JSON parsing, the sqlite engine's
byte-level work) enter the model as inputs: the worker receives the
outcome those libraries would produce.  `pd.DataFrame(parsed, columns)`
on a list of row-lists is modelled after pandas' documented behaviour:
rows shorter than the widest row are padded with NaN cells, and a
mismatch between `len(columns)` and the widest row raises.
-/

/-- Python `str`, viewed as a list of characters. -/
abbrev PyStr := List Char

/-- The whitespace characters removed by Python's `str.strip()`. -/
def pySpace (c : Char) : Bool :=
  c = ' ' || c = '\t' || c = '\n' || c = '\r' || c = '\x0b' || c = '\x0c'

/-- Python `s.strip()`: drop leading and trailing whitespace. -/
def pyStrip (s : PyStr) : PyStr :=
  ((s.dropWhile pySpace).reverse.dropWhile pySpace).reverse

/-- Python `s.split(sep)` for a one-character separator:
`"".split(sep) = [""]`, and each occurrence of `sep` starts a new field. -/
def pySplit (sep : Char) : PyStr → List PyStr
  | [] => [[]]
  | c :: cs =>
    if c = sep then [] :: pySplit sep cs
    else
      match pySplit sep cs with
      | [] => [[c]]
      | f :: fs => (c :: f) :: fs

/-- Python `sep.join(fields)` for a one-character separator. -/
def pyJoin (sep : Char) : List PyStr → PyStr
  | [] => []
  | [f] => f
  | f :: fs => f ++ sep :: pyJoin sep fs

/-- Python `f.readlines()` on the file contents: split after every
newline, keeping the newline at the end of each line. -/
def readlines : PyStr → List PyStr
  | [] => []
  | c :: cs =>
    if c = '\n' then ['\n'] :: readlines cs
    else
      match readlines cs with
      | [] => [[c]]
      | l :: ls => (c :: l) :: ls

/-- A scalar cell of a loaded table: a string, an integer, Python's
`None`, or pandas' float NaN (used to pad short rows). -/
inductive Cell where
  | pstr (s : PyStr)
  | pint (n : Int)
  | pnull
  | pnan
deriving DecidableEq

/-- Python `str(v)` on a cell, which is also what pandas'
`.astype(str)` produces per element: `str(None) = "None"`,
`str(nan) = "nan"`. -/
def cellStr : Cell → PyStr
  | .pstr s => s
  | .pint n => (toString n).toList
  | .pnull => "None".toList
  | .pnan => "nan".toList

/-- An in-memory table (the model of a `pandas.DataFrame`). -/
structure Df where
  cols : List PyStr
  rows : List (List Cell)
deriving DecidableEq

/-- The TOON step of `exportar_todos` (`src/bd.py` lines 89-95):
write `"|".join(dados[0].keys())` and a newline, then for every row
(including the first) write `"|".join(str(v) for v in row.values())`
and a newline.  `dados[0]` raises on an empty list, hence `Option`. -/
def exportarToon (dados : List (List (PyStr × Cell))) : Option PyStr :=
  match dados with
  | [] => none
  | d0 :: _ =>
    some ((pyJoin '|' (d0.map Prod.fst) ++ ['\n']) ++
      (dados.map (fun linha =>
        pyJoin '|' (linha.map (fun kv => cellStr kv.2)) ++ ['\n'])).flatten)

/-- Width pandas infers for a list of row-lists: the longest row. -/
def pdWidth (parsed : List (List PyStr)) : Nat :=
  (parsed.map List.length).foldr max 0

/-- Model of `pd.DataFrame(parsed, columns=columns)` on a list of
row-lists of strings: rows shorter than the widest row are padded with
NaN; if `len(columns)` differs from the widest row, pandas raises
(`AssertionError: ... columns passed, passed data had ... columns`). -/
def pdDataFrame (parsed : List (List PyStr)) (columns : List PyStr) : Except PyStr Df :=
  if parsed = [] then
    .ok { cols := columns, rows := [] }
  else if columns.length = pdWidth parsed then
    .ok { cols := columns,
          rows := parsed.map (fun r =>
            r.map Cell.pstr ++ List.replicate (pdWidth parsed - r.length) Cell.pnan) }
  else
    .error ("columns passed, passed data had different columns".toList)

/-- The synthetic column names `col_1 .. col_n` built by the toon
branch of `_load_worker`. -/
def colName (i : Nat) : PyStr := ("col_" ++ toString (i + 1)).toList

/-- The toon branch of `FormatPanel._load_worker` (`src/main.py`
lines 127-139): `readlines`, column count from `linhas[0].split('|')`
(no strip), synthetic names, then every line stripped and split on
`'|'` becomes a row of the DataFrame.  `linhas[0]` on an empty file
raises IndexError. -/
def toonDecode (content : PyStr) : Except PyStr Df :=
  match readlines content with
  | [] => .error ("list index out of range".toList)
  | l0 :: rest =>
    pdDataFrame ((l0 :: rest).map (fun linha => pySplit '|' (pyStrip linha)))
      ((List.range (pySplit '|' l0).length).map colName)

/-- One table of a sqlite file: its name and its contents as the
DataFrame `pd.read_sql_query` would return. -/
structure SqlTable where
  name : PyStr
  df : Df
deriving DecidableEq

/-- `FormatPanel._load_sqlite` (`src/main.py` lines 165-179): list the
tables; zero tables raises `RuntimeError('BD SQLite sem tabelas')`;
one table is read directly; with several the user's dialog choice
(`chosen`) picks the table, and choosing a missing name makes the SQL
query raise. -/
def loadSqlite (tables : List SqlTable) (chosen : PyStr) : Except PyStr Df :=
  match tables with
  | [] => .error ("BD SQLite sem tabelas".toList)
  | [t] => .ok t.df
  | ts =>
    match ts.find? (fun t => t.name == chosen) with
    | some t => .ok t.df
    | none => .error ("no such table".toList)

instance {ε α : Type} [DecidableEq ε] [DecidableEq α] : DecidableEq (Except ε α) :=
  fun a b =>
    match a, b with
    | .error e1, .error e2 => decidable_of_iff (e1 = e2) (by simp)
    | .ok a1, .ok a2 => decidable_of_iff (a1 = a2) (by simp)
    | .error _, .ok _ => isFalse (by simp)
    | .ok _, .error _ => isFalse (by simp)

/-- What the worker finds behind the selected path, with external
parsing libraries entering as their outcome: the tables of a sqlite
file plus the user's table choice, the `Except` result of the pandas
CSV reader or of `json.load` + DataFrame construction, or the raw text
contents consumed by the toon branch. -/
inductive SourceData where
  | sqlite (tables : List SqlTable) (chosen : PyStr)
  | lib (result : Except PyStr Df)
  | text (content : PyStr)
deriving DecidableEq

/-- The dispatch inside `FormatPanel._load_worker`'s `try` block:
one decode strategy per format key, unknown keys raise
`RuntimeError('Formato não suportado')`.  A source that does not match
the format's expectation makes the library call raise. -/
def decodeFor (fmtKey : String) (src : SourceData) : Except PyStr Df :=
  if fmtKey = "sqlite" then
    match src with
    | .sqlite tables chosen => loadSqlite tables chosen
    | _ => .error ("file is not a database".toList)
  else if fmtKey = "csv" || fmtKey = "json" then
    match src with
    | .lib r => r
    | _ => .error ("parse error".toList)
  else if fmtKey = "toon" then
    match src with
    | .text content => toonDecode content
    | _ => .error ("parse error".toList)
  else
    .error ("Formato nao suportado".toList)

/-- The per-slot record handed to `ComparatorPanel.record`:
`(file, time_s, rows)`, with `None` time and rows on failure. -/
structure LoadRec where
  file : PyStr
  time : Option ℚ
  rows : Option Nat
deriving DecidableEq

/-- Everything `_load_worker` leaves behind: the record passed to the
comparator, the error message appended to the log on failure, and the
DataFrame stored in `self.df` on success. -/
structure WorkerOut where
  recorded : LoadRec
  errMsg : Option PyStr
  df : Option Df
deriving DecidableEq

/-- `FormatPanel._load_worker` (`src/main.py` lines 111-163): run the
format's decode inside `try`; any exception is caught, logged as
`'ERRO ao carregar: ...'` and recorded as `(path, None, None)`; on
success the elapsed wall-clock time (a nondeterministic input of the
model) and `len(df)` are recorded. -/
def loadWorker (fmtKey : String) (src : SourceData) (path : PyStr) (elapsed : ℚ) :
    WorkerOut :=
  match decodeFor fmtKey src with
  | .error e =>
    { recorded := { file := path, time := none, rows := none },
      errMsg := some ("ERRO ao carregar: ".toList ++ e),
      df := none }
  | .ok df =>
    { recorded := { file := path, time := some elapsed, rows := some df.rows.length },
      errMsg := none,
      df := some df }

/-- `ComparatorPanel.records`: a Python dict from format key to record,
modelled as an association list in insertion order (updating an
existing key keeps its position, as Python dicts do). -/
abbrev Ledger := List (String × LoadRec)

/-- `self.records[fmt_key] = (file, time_s, rows)`: replace in place if
the key exists, else append. -/
def recordUpsert (k : String) (v : LoadRec) : Ledger → Ledger
  | [] => [(k, v)]
  | (k2, v2) :: rest =>
    if k2 = k then (k2, v) :: rest else (k2, v2) :: recordUpsert k v rest

/-- `valid_times`: the records whose time is not `None`, in dict
(insertion) order, reduced to the two components `_refresh` uses
downstream (format key and time). -/
def validTimes (l : Ledger) : List (String × ℚ) :=
  l.filterMap (fun p => p.2.time.map (fun t => (p.1, t)))

/-- Python's `min(items, key=time)` starting from `acc`: keeps the
current optimum unless a strictly smaller one appears, so the first
minimum wins. -/
def pyMinRun (acc : String × ℚ) : List (String × ℚ) → String × ℚ
  | [] => acc
  | x :: xs => pyMinRun (if x.2 < acc.2 then x else acc) xs

/-- Python's `max(items, key=time)` starting from `acc`: keeps the
current optimum unless a strictly larger one appears, so the first
maximum wins. -/
def pyMaxRun (acc : String × ℚ) : List (String × ℚ) → String × ℚ
  | [] => acc
  | x :: xs => pyMaxRun (if acc.2 < x.2 then x else acc) xs

/-- The comparison of `sorted(valid_times, key=lambda x: x[2])`:
records are compared by elapsed time. -/
def byTime (a b : String × ℚ) : Prop := a.2 ≤ b.2

instance : DecidableRel byTime := fun a b => inferInstanceAs (Decidable (a.2 ≤ b.2))

instance : IsTotal (String × ℚ) byTime := ⟨fun a b => le_total a.2 b.2⟩

instance : IsTrans (String × ℚ) byTime := ⟨fun _ _ _ => le_trans⟩

/-- `ordered = sorted(valid_times, key=...)`: Python's sort is stable
(equal keys keep their input order), modelled by the stable
`List.insertionSort`. -/
def orderedTimes (l : Ledger) : List (String × ℚ) :=
  (validTimes l).insertionSort byTime

/-- `ranking = {fmt: i + 1 for i, ... in enumerate(ordered)}` followed
by `ranking.get(fmt)`: the 1-based position of the format in the
sorted list, if present. -/
def rankOf (l : Ledger) (fmt : String) : Option Nat :=
  ((orderedTimes l).findIdx? (fun p => p.1 == fmt)).map (· + 1)

/-- `self.records.get(fmt)`. -/
def lookupRec (l : Ledger) (fmt : String) : Option LoadRec :=
  (l.find? (fun p => p.1 == fmt)).map Prod.snd

/-- Python `int(q)`: truncation toward zero. -/
def pyInt (q : ℚ) : Int := if 0 ≤ q then ⌊q⌋ else ⌈q⌉

/-- The `speed` column: `''` unless both `t` and `rows` are truthy
(not `None` and nonzero), else `int(rows / t)`. -/
def speedOf (r : LoadRec) : Option Int :=
  match r.time, r.rows with
  | some t, some n => if t ≠ 0 ∧ n ≠ 0 then some (pyInt ((n : ℚ) / t)) else none
  | _, _ => none

/-- The fixed order of the four format slots iterated by `_refresh`. -/
def fourFmts : List String := ["sqlite", "csv", "json", "toon"]

/-- One row of the comparison table as `_refresh` inserts it.  `none`
stands for a blank cell; `tag` is the single Treeview tag attached to
the row (`"fastest"`, `"slowest"` or none).  The `file`/`size` display
columns are presentation-only (basename and a formatted on-disk size)
and carry no decision structure, so the model keeps the raw path and
omits the size string. -/
structure DisplayRow where
  fmt : String
  file : PyStr
  time : Option ℚ
  rows : Option Nat
  speed : Option Int
  rank : Option Nat
  tag : String
deriving DecidableEq

/-- The body of the `for fmt in ('sqlite','csv','json','toon')` loop of
`_refresh`, given the format keys of the `fastest` and `slowest`
tuples: an unrecorded slot becomes an all-blank row; a recorded slot
shows its fields, its speed, its rank if ranked, and the tag chosen by
`if fmt == fastest[0] ... elif fmt == slowest[0] ...`. -/
def displaySlot (l : Ledger) (fastF slowF : String) (fmt : String) : DisplayRow :=
  match lookupRec l fmt with
  | none =>
    { fmt := fmt, file := [], time := none, rows := none,
      speed := none, rank := none, tag := "" }
  | some r =>
    { fmt := fmt, file := r.file, time := r.time, rows := r.rows,
      speed := speedOf r, rank := rankOf l fmt,
      tag := if fmt = fastF then "fastest"
             else if fmt = slowF then "slowest" else "" }

/-- `ComparatorPanel._refresh` (`src/main.py` lines 290-341): clear the
table; if no record has a time, stop (nothing is displayed); otherwise
compute fastest, slowest and the ranking and insert one row per fixed
format slot. -/
def refresh (l : Ledger) : List DisplayRow :=
  match validTimes l with
  | [] => []
  | v :: vs =>
    fourFmts.map (displaySlot l (pyMinRun v vs).1 (pyMaxRun v vs).1)

/-- `ComparatorPanel.record` (`src/main.py` lines 286-288): upsert the
slot, then recompute the display.  Returns the new ledger and the
refreshed table contents. -/
def comparatorRecord (fmtKey : String) (file : PyStr) (t : Option ℚ)
    (rows : Option Nat) (l : Ledger) : Ledger × List DisplayRow :=
  let l2 := recordUpsert fmtKey { file := file, time := t, rows := rows } l
  (l2, refresh l2)

/-- Outcome of `FormatPanel.search` (`src/main.py` lines 224-243):
no dataset loaded, blank term, or the list of matching rows. -/
inductive SearchOutcome where
  | noData
  | emptyQuery
  | results (found : List (List Cell))
deriving DecidableEq

/-- One cell of the mask `col.astype(str).str.contains(term, case=False,
na=False)`: the cell's `astype(str)` form contains the term,
case-insensitively.  The real call hands `term` to a regex engine; the
model covers terms that are regex-literal (the matching theorems
restrict to alphanumeric terms). -/
def cellMatches (term : PyStr) (c : Cell) : Bool :=
  decide ((term.map Char.toLower) <:+: ((cellStr c).map Char.toLower))

/-- `mask.any(axis=1)` for one row. -/
def rowMatches (term : PyStr) (row : List Cell) : Bool :=
  row.any (cellMatches term)

/-- `FormatPanel.search`: no loaded dataset logs an error and stops; a
term that strips to empty logs a warning and stops; otherwise the rows
whose mask is set are selected, in order. -/
def searchRun (df : Option Df) (raw : PyStr) : SearchOutcome :=
  match df with
  | none => .noData
  | some d =>
    if pyStrip raw = [] then .emptyQuery
    else .results (d.rows.filter (rowMatches (pyStrip raw)))

/-- First and last characters (when present) are not whitespace, so
that a line built from such pieces is unchanged by `strip()` apart
from its trailing newline. -/
def noEdgeSpace (s : PyStr) : Bool :=
  s.head?.all (fun c => !pySpace c) && s.reverse.head?.all (fun c => !pySpace c)

/-- A cell or column-name string the TOON round trip keeps intact: no
separator, no newline, no whitespace at either end. -/
def cleanField (s : PyStr) : Bool :=
  s.all (fun c => !(c == '|') && !(c == '\n')) && noEdgeSpace s

example : pySplit '|' ("a|b".toList) = ["a".toList, "b".toList] := by decide
example : pyStrip ("  a b\n".toList) = "a b".toList := by decide
example : readlines ("ab\nc".toList) = ["ab\n".toList, "c".toList] := by decide
example : exportarToon [[("id".toList, Cell.pint 1)]] = some ("id\n1\n".toList) := by decide
example :
    toonDecode ("id\n1\n".toList) =
      .ok { cols := [colName 0], rows := [["id".toList].map Cell.pstr, ["1".toList].map Cell.pstr] } := by
  decide

/-! ### Lemmas about the character-level string model -/

theorem pySplit_no_sep {sep : Char} {s : PyStr} (h : sep ∉ s) :
    pySplit sep s = [s] := by
  induction s with
  | nil => rfl
  | cons c cs ih =>
    rw [List.mem_cons, not_or] at h
    have hc : ¬ (c = sep) := fun he => h.1 he.symm
    simp only [pySplit, if_neg hc, ih h.2]

theorem pySplit_cons_ne {sep c : Char} (hc : ¬ c = sep) {cs : PyStr} {f : PyStr}
    {fs : List PyStr} (h : pySplit sep cs = f :: fs) :
    pySplit sep (c :: cs) = (c :: f) :: fs := by
  simp only [pySplit, if_neg hc, h]

theorem pySplit_ne_nil {sep : Char} {s : PyStr} : pySplit sep s ≠ [] := by
  induction s with
  | nil => simp [pySplit]
  | cons c cs ih =>
    by_cases hc : c = sep
    · simp [pySplit, hc]
    · simp only [pySplit, if_neg hc]
      cases hsp : pySplit sep cs with
      | nil => exact absurd hsp ih
      | cons a b => simp

theorem pySplit_append_sep {sep : Char} {f rest : PyStr} (h : sep ∉ f) :
    pySplit sep (f ++ sep :: rest) = f :: pySplit sep rest := by
  induction f with
  | nil => simp [pySplit]
  | cons c cs ih =>
    rw [List.mem_cons, not_or] at h
    rw [List.cons_append, pySplit_cons_ne (fun he => h.1 (Eq.symm he)) (ih h.2)]

theorem pySplit_pyJoin {sep : Char} {fields : List PyStr} (hne : fields ≠ [])
    (h : ∀ f ∈ fields, sep ∉ f) : pySplit sep (pyJoin sep fields) = fields := by
  induction fields with
  | nil => exact absurd rfl hne
  | cons f fs ih =>
    cases fs with
    | nil => exact pySplit_no_sep (h f (List.mem_cons_self f []))
    | cons f2 fs2 =>
      rw [show pyJoin sep (f :: f2 :: fs2) = f ++ sep :: pyJoin sep (f2 :: fs2) from rfl,
        pySplit_append_sep (h f (List.mem_cons_self _ _)),
        ih (List.cons_ne_nil f2 fs2) (fun g hg => h g (List.mem_cons_of_mem f hg))]

theorem length_pySplit {sep : Char} {s : PyStr} :
    (pySplit sep s).length = s.count sep + 1 := by
  induction s with
  | nil => rfl
  | cons c cs ih =>
    by_cases hc : c = sep
    · subst hc
      simp [pySplit, List.count_cons, ih]
    · cases hsp : pySplit sep cs with
      | nil => exact absurd hsp pySplit_ne_nil
      | cons a b =>
        rw [pySplit_cons_ne hc hsp, List.count_cons]
        rw [hsp] at ih
        simp only [List.length_cons] at ih ⊢
        simp only [beq_iff_eq, if_neg hc]
        omega

theorem count_pyJoin_self {sep : Char} {fields : List PyStr} (hne : fields ≠ [])
    (h : ∀ f ∈ fields, sep ∉ f) :
    (pyJoin sep fields).count sep = fields.length - 1 := by
  induction fields with
  | nil => exact absurd rfl hne
  | cons f fs ih =>
    cases fs with
    | nil =>
      simp [pyJoin, List.count_eq_zero.mpr (h f (List.mem_cons_self f []))]
    | cons f2 fs2 =>
      rw [show pyJoin sep (f :: f2 :: fs2) = f ++ sep :: pyJoin sep (f2 :: fs2) from rfl]
      rw [List.count_append, List.count_cons,
        ih (List.cons_ne_nil f2 fs2) (fun g hg => h g (List.mem_cons_of_mem f hg)),
        List.count_eq_zero.mpr (h f (List.mem_cons_self f _))]
      simp

theorem not_mem_pyJoin {sep c : Char} {fields : List PyStr} (hc : c ≠ sep)
    (h : ∀ f ∈ fields, c ∉ f) : c ∉ pyJoin sep fields := by
  induction fields with
  | nil => simp [pyJoin]
  | cons f fs ih =>
    cases fs with
    | nil => exact h f (List.mem_cons_self f [])
    | cons f2 fs2 =>
      rw [show pyJoin sep (f :: f2 :: fs2) = f ++ sep :: pyJoin sep (f2 :: fs2) from rfl]
      intro hmem
      rcases List.mem_append.mp hmem with hmem | hmem
      · exact h f (List.mem_cons_self f _) hmem
      · rcases List.mem_cons.mp hmem with hmem | hmem
        · exact hc hmem
        · exact ih (fun g hg => h g (List.mem_cons_of_mem f hg)) hmem

theorem readlines_cons_ne {c : Char} (hc : ¬ c = '\n') {cs : PyStr} {l : PyStr}
    {ls : List PyStr} (h : readlines cs = l :: ls) :
    readlines (c :: cs) = (c :: l) :: ls := by
  simp only [readlines, if_neg hc, h]

theorem readlines_line {l rest : PyStr} (h : '\n' ∉ l) :
    readlines ((l ++ ['\n']) ++ rest) = (l ++ ['\n']) :: readlines rest := by
  induction l with
  | nil => simp [readlines]
  | cons c cs ih =>
    rw [List.mem_cons, not_or] at h
    rw [List.cons_append, List.cons_append,
      readlines_cons_ne (fun he => h.1 (Eq.symm he)) (ih h.2)]

theorem readlines_lines {lines : List PyStr} (h : ∀ l ∈ lines, '\n' ∉ l) :
    readlines (lines.map (fun l => l ++ ['\n'])).flatten =
      lines.map (fun l => l ++ ['\n']) := by
  induction lines with
  | nil => rfl
  | cons l ls ih =>
    rw [List.map_cons, List.flatten_cons, readlines_line (h l (List.mem_cons_self l ls)),
      ih (fun g hg => h g (List.mem_cons_of_mem l hg))]

theorem toonDecode_eq {content : PyStr} {l0 : PyStr} {rest : List PyStr}
    (h : readlines content = l0 :: rest) :
    toonDecode content =
      pdDataFrame ((l0 :: rest).map (fun linha => pySplit '|' (pyStrip linha)))
        ((List.range (pySplit '|' l0).length).map colName) := by
  simp only [toonDecode, h]

theorem cleanField_not_pipe {s : PyStr} (h : cleanField s = true) : '|' ∉ s := by
  rw [cleanField, Bool.and_eq_true, List.all_eq_true] at h
  intro hm
  have := h.1 _ hm
  simp at this

theorem cleanField_not_newline {s : PyStr} (h : cleanField s = true) : '\n' ∉ s := by
  rw [cleanField, Bool.and_eq_true, List.all_eq_true] at h
  intro hm
  have := h.1 _ hm
  simp at this

theorem cleanField_noEdgeSpace {s : PyStr} (h : cleanField s = true) :
    noEdgeSpace s = true := by
  rw [cleanField, Bool.and_eq_true] at h
  exact h.2

theorem pyStrip_line {s : PyStr} (h : noEdgeSpace s = true) :
    pyStrip (s ++ ['\n']) = s := by
  cases s with
  | nil => decide
  | cons a m =>
    rw [noEdgeSpace, Bool.and_eq_true] at h
    have ha : pySpace a = false := by simpa using h.1
    cases hrev : (a :: m).reverse with
    | nil => exact absurd hrev (by simp)
    | cons b t =>
      have hb : pySpace b = false := by
        have h2 := h.2
        rw [hrev] at h2
        simpa using h2
      show ((((a :: m) ++ ['\n']).dropWhile pySpace).reverse.dropWhile pySpace).reverse
          = a :: m
      rw [List.cons_append, List.dropWhile_cons, if_neg (by simp [ha])]
      rw [show a :: (m ++ ['\n']) = (a :: m) ++ ['\n'] from rfl, List.reverse_append]
      rw [show (['\n'] : PyStr).reverse ++ (a :: m).reverse
            = '\n' :: (a :: m).reverse from by simp]
      rw [List.dropWhile_cons, if_pos (by decide)]
      rw [hrev, List.dropWhile_cons, if_neg (by simp [hb]), ← hrev, List.reverse_reverse]

theorem noEdgeSpace_pyJoin {fields : List PyStr} (hne : fields ≠ [])
    (h : ∀ f ∈ fields, noEdgeSpace f = true) :
    noEdgeSpace (pyJoin '|' fields) = true := by
  have hpipe : pySpace '|' = false := by decide
  induction fields with
  | nil => exact absurd rfl hne
  | cons f fs ih =>
    cases fs with
    | nil => exact h f (List.mem_cons_self f [])
    | cons f2 fs2 =>
      have hf : noEdgeSpace f = true := h f (List.mem_cons_self f _)
      have hrec : noEdgeSpace (pyJoin '|' (f2 :: fs2)) = true :=
        ih (List.cons_ne_nil f2 fs2) (fun g hg => h g (List.mem_cons_of_mem f hg))
      rw [noEdgeSpace, Bool.and_eq_true] at hf hrec ⊢
      rw [show pyJoin '|' (f :: f2 :: fs2) = f ++ '|' :: pyJoin '|' (f2 :: fs2) from rfl]
      constructor
      · rw [List.head?_append]
        cases f with
        | nil => simp [hpipe]
        | cons a m => simpa using hf.1
      · rw [List.reverse_append, List.reverse_cons, List.head?_append, List.head?_append]
        cases hj : (pyJoin '|' (f2 :: fs2)).reverse with
        | nil => simp [hj, hpipe]
        | cons b t =>
          have hb := hrec.2
          rw [hj] at hb
          simpa using hb

theorem pdWidth_const {parsed : List (List PyStr)} {n : Nat} (hne : parsed ≠ [])
    (h : ∀ r ∈ parsed, r.length = n) : pdWidth parsed = n := by
  induction parsed with
  | nil => exact absurd rfl hne
  | cons r rs ih =>
    cases rs with
    | nil => simp [pdWidth, h r (List.mem_cons_self r [])]
    | cons r2 rs2 =>
      have hrec : pdWidth (r2 :: rs2) = n :=
        ih (List.cons_ne_nil r2 rs2) (fun g hg => h g (List.mem_cons_of_mem r hg))
      rw [pdWidth] at hrec ⊢
      simp only [List.map_cons, List.foldr_cons] at hrec ⊢
      rw [hrec, h r (List.mem_cons_self r _)]
      simp

theorem toonDecode_of_lines (fieldRows : List (List PyStr)) (f0 : List PyStr)
    (hne : ∀ fr ∈ f0 :: fieldRows, fr ≠ [])
    (hclean : ∀ fr ∈ f0 :: fieldRows, ∀ f ∈ fr, cleanField f = true)
    (hlen : ∀ fr ∈ f0 :: fieldRows, fr.length = f0.length) :
    toonDecode (((f0 :: fieldRows).map (fun fr => pyJoin '|' fr ++ ['\n'])).flatten) =
      .ok { cols := (List.range f0.length).map colName,
            rows := (f0 :: fieldRows).map (fun fr => fr.map Cell.pstr) } := by
  have hc : ((f0 :: fieldRows).map (fun fr => pyJoin '|' fr ++ ['\n'])).flatten
      = (((f0 :: fieldRows).map (fun fr => pyJoin '|' fr)).map (fun l => l ++ ['\n'])).flatten := by
    rw [List.map_map]
    rfl
  have hnl : ∀ l ∈ (f0 :: fieldRows).map (fun fr => pyJoin '|' fr), '\n' ∉ l := by
    intro l hl
    obtain ⟨fr, hfr, rfl⟩ := List.mem_map.mp hl
    exact not_mem_pyJoin (by decide)
      (fun f hf => cleanField_not_newline (hclean fr hfr f hf))
  have hrl : readlines (((f0 :: fieldRows).map (fun fr => pyJoin '|' fr ++ ['\n'])).flatten)
      = (pyJoin '|' f0 ++ ['\n']) ::
        (fieldRows.map (fun fr => pyJoin '|' fr)).map (fun l => l ++ ['\n']) := by
    rw [hc, readlines_lines hnl, List.map_cons, List.map_cons]
  rw [toonDecode_eq hrl]
  have hf0ne : f0 ≠ [] := hne f0 (List.mem_cons_self f0 fieldRows)
  have hf0pos : 0 < f0.length := List.length_pos.mpr hf0ne
  have hcount : (pySplit '|' (pyJoin '|' f0 ++ ['\n'])).length = f0.length := by
    rw [length_pySplit, List.count_append,
      count_pyJoin_self hf0ne
        (fun f hf => cleanField_not_pipe (hclean f0 (List.mem_cons_self f0 fieldRows) f hf)),
      show List.count '|' (['\n'] : PyStr) = 0 from by decide]
    omega
  have hparse : ∀ fr ∈ f0 :: fieldRows,
      pySplit '|' (pyStrip (pyJoin '|' fr ++ ['\n'])) = fr := by
    intro fr hfr
    rw [pyStrip_line (noEdgeSpace_pyJoin (hne fr hfr)
      (fun f hf => cleanField_noEdgeSpace (hclean fr hfr f hf)))]
    exact pySplit_pyJoin (hne fr hfr)
      (fun f hf => cleanField_not_pipe (hclean fr hfr f hf))
  have hparsed :
      ((pyJoin '|' f0 ++ ['\n']) ::
          (fieldRows.map (fun fr => pyJoin '|' fr)).map (fun l => l ++ ['\n'])).map
        (fun linha => pySplit '|' (pyStrip linha)) = f0 :: fieldRows := by
    rw [show ((pyJoin '|' f0 ++ ['\n']) ::
          (fieldRows.map (fun fr => pyJoin '|' fr)).map (fun l => l ++ ['\n']))
        = ((f0 :: fieldRows).map (fun fr => pyJoin '|' fr)).map (fun l => l ++ ['\n']) from by
      rw [List.map_cons, List.map_cons]]
    rw [List.map_map, List.map_map]
    have hstep : ∀ fr ∈ f0 :: fieldRows,
        (((fun linha => pySplit '|' (pyStrip linha)) ∘ (fun l => l ++ ['\n'])) ∘
          (fun fr => pyJoin '|' fr)) fr = id fr := by
      intro fr hfr
      simp only [Function.comp_apply, id_eq]
      exact hparse fr hfr
    rw [List.map_congr_left hstep, List.map_id]
  rw [hparsed, hcount]
  have hwid : pdWidth (f0 :: fieldRows) = f0.length :=
    pdWidth_const (List.cons_ne_nil f0 fieldRows) hlen
  rw [pdDataFrame, if_neg (by simp), if_pos (by simp [hwid])]
  refine congrArg Except.ok ?_
  refine congrArg (fun r => Df.mk ((List.range f0.length).map colName) r) ?_
  refine List.map_congr_left ?_
  intro fr hfr
  rw [hwid, hlen fr hfr]
  simp

/-- C1 (amended): a nonempty dataset whose column names and
string-coerced cell values are round-trip-safe (no `'|'`, no newline,
no whitespace at either end) and whose rows all have the header's
width, exported to the pipe-delimited TOON format and decoded back,
yields a DataFrame with synthetic column names `col_1..col_n` and one
MORE row than the source: the exporter writes a genuine header line
but the decoder treats every line (including the first) as a data row,
so the first decoded row holds the original column names and every
source row follows, in order, with its cells string-coerced. -/
theorem toon_export_decode_roundtrip (d0 : List (PyStr × Cell))
    (ds : List (List (PyStr × Cell)))
    (hd0 : d0 ≠ [])
    (hkeys : ∀ kv ∈ d0, cleanField kv.1 = true)
    (hvals : ∀ r ∈ d0 :: ds, ∀ kv ∈ r, cleanField (cellStr kv.2) = true)
    (hlen : ∀ r ∈ d0 :: ds, r.length = d0.length) :
    ∃ content, exportarToon (d0 :: ds) = some content ∧
      toonDecode content = .ok
        { cols := (List.range d0.length).map colName,
          rows := d0.map (fun kv => Cell.pstr kv.1) ::
            (d0 :: ds).map (fun r => r.map (fun kv => Cell.pstr (cellStr kv.2))) } := by
  refine ⟨_, rfl, ?_⟩
  have hd0pos : 0 < d0.length := List.length_pos.mpr hd0
  have hne2 : ∀ fr ∈ (d0.map Prod.fst) ::
      (d0 :: ds).map (fun r => r.map (fun kv => cellStr kv.2)), fr ≠ [] := by
    intro fr hfr
    rcases List.mem_cons.mp hfr with h | h
    · subst h
      simpa using hd0
    · obtain ⟨r, hr, rfl⟩ := List.mem_map.mp h
      have hr0 : r.length = d0.length := hlen r hr
      intro hnil
      rw [List.map_eq_nil_iff] at hnil
      subst hnil
      simp at hr0
      omega
  have hclean2 : ∀ fr ∈ (d0.map Prod.fst) ::
      (d0 :: ds).map (fun r => r.map (fun kv => cellStr kv.2)),
      ∀ f ∈ fr, cleanField f = true := by
    intro fr hfr f hf
    rcases List.mem_cons.mp hfr with h | h
    · subst h
      obtain ⟨kv, hkv, rfl⟩ := List.mem_map.mp hf
      exact hkeys kv hkv
    · obtain ⟨r, hr, rfl⟩ := List.mem_map.mp h
      obtain ⟨kv, hkv, rfl⟩ := List.mem_map.mp hf
      exact hvals r hr kv hkv
  have hlen2 : ∀ fr ∈ (d0.map Prod.fst) ::
      (d0 :: ds).map (fun r => r.map (fun kv => cellStr kv.2)),
      fr.length = (d0.map Prod.fst).length := by
    intro fr hfr
    rcases List.mem_cons.mp hfr with h | h
    · subst h
      rfl
    · obtain ⟨r, hr, rfl⟩ := List.mem_map.mp h
      rw [List.length_map, List.length_map]
      exact hlen r hr
  have hmain := toonDecode_of_lines
    ((d0 :: ds).map (fun r => r.map (fun kv => cellStr kv.2))) (d0.map Prod.fst)
    hne2 hclean2 hlen2
  have hcontent : (pyJoin '|' (d0.map Prod.fst) ++ ['\n']) ++
      ((d0 :: ds).map (fun linha =>
        pyJoin '|' (linha.map (fun kv => cellStr kv.2)) ++ ['\n'])).flatten
      = (((d0.map Prod.fst) ::
          (d0 :: ds).map (fun r => r.map (fun kv => cellStr kv.2))).map
            (fun fr => pyJoin '|' fr ++ ['\n'])).flatten := by
    conv_rhs => rw [List.map_cons, List.flatten_cons, List.map_map]
    rfl
  rw [hcontent, hmain]
  simp only [List.map_cons, List.map_map, List.length_map, Function.comp_def]

/-- C1 counterexample: exporting the one-row dataset `{id: 1}` to the
TOON format and decoding it back yields a DataFrame with TWO rows (the
header line `id` is decoded as a data row), not the source's one row,
so the round trip does not preserve the row count as the claim
states. -/
theorem toon_roundtrip_rowcount_counterexample :
    exportarToon [[("id".toList, Cell.pint 1)]] = some ("id\n1\n".toList) ∧
    toonDecode ("id\n1\n".toList) =
      .ok { cols := [colName 0],
            rows := [["id".toList].map Cell.pstr, ["1".toList].map Cell.pstr] } ∧
    [["id".toList].map Cell.pstr, ["1".toList].map Cell.pstr].length = 2 ∧
    [[("id".toList, Cell.pint 1)]].length = 1 :=
  ⟨by decide, by decide, rfl, rfl⟩

/-- Witness for `toon_export_decode_roundtrip` at the concrete two-row
dataset `[{id: 1}, {id: 2}]`. -/
theorem toon_export_decode_roundtrip_witness :
    ∃ content,
      exportarToon [[("id".toList, Cell.pint 1)], [("id".toList, Cell.pint 2)]]
        = some content ∧
      toonDecode content = .ok
        { cols := (List.range ([("id".toList, Cell.pint 1)] :
            List (PyStr × Cell)).length).map colName,
          rows := ([("id".toList, Cell.pint 1)] :
              List (PyStr × Cell)).map (fun kv => Cell.pstr kv.1) ::
            ([("id".toList, Cell.pint 1)] :: [[("id".toList, Cell.pint 2)]]).map
              (fun r => r.map (fun kv => Cell.pstr (cellStr kv.2))) } :=
  toon_export_decode_roundtrip [("id".toList, Cell.pint 1)] [[("id".toList, Cell.pint 2)]]
    (by decide) (by decide) (by decide) (by decide)

theorem count_dropWhile {p : Char → Bool} {c : Char} (hc : p c = false) {l : PyStr} :
    (l.dropWhile p).count c = l.count c := by
  induction l with
  | nil => rfl
  | cons a l ih =>
    by_cases ha : p a = true
    · rw [List.dropWhile_cons, if_pos ha, ih, List.count_cons]
      have hne : (a == c) = false := by
        rw [beq_eq_false_iff_ne]
        intro h
        rw [h] at ha
        rw [ha] at hc
        cases hc
      simp [hne]
    · rw [List.dropWhile_cons, if_neg ha]

theorem count_pyStrip {c : Char} (hc : pySpace c = false) {s : PyStr} :
    (pyStrip s).count c = s.count c := by
  rw [pyStrip, List.count_reverse, count_dropWhile hc, List.count_reverse,
    count_dropWhile hc]

theorem le_foldr_max {l : List Nat} {x : Nat} (h : x ∈ l) : x ≤ l.foldr max 0 := by
  induction l with
  | nil => cases h
  | cons a l ih =>
    rcases List.mem_cons.mp h with h | h
    · subst h
      exact le_max_left _ _
    · exact le_trans (ih h) (le_max_right _ _)

theorem foldr_max_mem {l : List Nat} (h : l ≠ []) : l.foldr max 0 ∈ l := by
  induction l with
  | nil => exact absurd rfl h
  | cons a l ih =>
    cases l with
    | nil => simp
    | cons b t =>
      rw [List.foldr_cons]
      rcases max_choice a ((b :: t).foldr max 0) with hm | hm
      · rw [hm]
        exact List.mem_cons_self _ _
      · rw [hm]
        exact List.mem_cons_of_mem a (ih (List.cons_ne_nil b t))

theorem pdDataFrame_error_iff {parsed : List (List PyStr)} {columns : List PyStr}
    (h : parsed ≠ []) :
    (∃ e, pdDataFrame parsed columns = .error e) ↔ columns.length ≠ pdWidth parsed := by
  rw [pdDataFrame, if_neg h]
  by_cases hw : columns.length = pdWidth parsed
  · simp [hw]
  · simp [hw]

theorem decodeFor_toon (content : PyStr) :
    decodeFor "toon" (SourceData.text content) = toonDecode content := by
  simp only [decodeFor]
  rw [if_neg (by decide), if_neg (by decide), if_pos (by decide)]

theorem loadWorker_recorded_error {k : String} {src : SourceData} {path : PyStr} {t : ℚ}
    {e : PyStr} (h : decodeFor k src = .error e) :
    loadWorker k src path t =
      { recorded := { file := path, time := none, rows := none },
        errMsg := some ("ERRO ao carregar: ".toList ++ e),
        df := none } := by
  simp only [loadWorker, h]

/-- C10 (amended): a toon load never crashes the worker: an empty
source fails to decode (the IndexError on `linhas[0]` is caught), and
a source with uneven lines fails exactly when some line has MORE
'|'-separated fields than the first line (pandas pads lines with fewer
fields with NaN cells and succeeds); every decode failure is recorded
as a LoadRecord with absent time and row fields. -/
theorem toon_malformed_fails_safely (content path : PyStr) (elapsed : ℚ) :
    (readlines content = [] → ∃ e, toonDecode content = .error e) ∧
    (∀ l0 rest, readlines content = l0 :: rest →
      ((∃ e, toonDecode content = .error e) ↔
        ∃ l ∈ l0 :: rest, l0.count '|' < l.count '|')) ∧
    (∀ e, toonDecode content = .error e →
      (loadWorker "toon" (SourceData.text content) path elapsed).recorded
        = { file := path, time := none, rows := none }) := by
  refine ⟨?_, ?_, ?_⟩
  · intro h
    exact ⟨"list index out of range".toList, by simp only [toonDecode, h]⟩
  · intro l0 rest hr
    rw [toonDecode_eq hr]
    have hmap : ((l0 :: rest).map (fun linha => pySplit '|' (pyStrip linha))).map
        List.length = (l0 :: rest).map (fun l => l.count '|' + 1) := by
      rw [List.map_map]
      refine List.map_congr_left ?_
      intro l hl
      simp only [Function.comp_apply]
      rw [length_pySplit, count_pyStrip (by decide)]
    have hW : pdWidth ((l0 :: rest).map (fun linha => pySplit '|' (pyStrip linha)))
        = ((l0 :: rest).map (fun l => l.count '|' + 1)).foldr max 0 := by
      rw [pdWidth, hmap]
    have hcols : ((List.range (pySplit '|' l0).length).map colName).length
        = l0.count '|' + 1 := by
      rw [List.length_map, List.length_range, length_pySplit]
    rw [pdDataFrame_error_iff (by simp), hW, hcols]
    constructor
    · intro hne
      have hmem : (((l0 :: rest).map (fun l => l.count '|' + 1)).foldr max 0)
          ∈ (l0 :: rest).map (fun l => l.count '|' + 1) := foldr_max_mem (by simp)
      obtain ⟨lw, hlw, hval⟩ := List.mem_map.mp hmem
      refine ⟨lw, hlw, ?_⟩
      have hge : l0.count '|' + 1
          ≤ ((l0 :: rest).map (fun l => l.count '|' + 1)).foldr max 0 :=
        le_foldr_max (List.mem_map.mpr ⟨l0, List.mem_cons_self _ _, rfl⟩)
      omega
    · rintro ⟨l, hl, hlt⟩
      have hge : l.count '|' + 1
          ≤ ((l0 :: rest).map (fun l => l.count '|' + 1)).foldr max 0 :=
        le_foldr_max (List.mem_map.mpr ⟨l, hl, rfl⟩)
      omega
  · intro e he
    rw [loadWorker_recorded_error ((decodeFor_toon content).trans he)]

/-- Witness for `toon_malformed_fails_safely`: on `"a\nb|c\n"` the
second line has more fields than the first, so the decode fails and
the worker records absent time and row fields. -/
theorem toon_malformed_fails_safely_witness :
    ∃ e, toonDecode ("a\nb|c\n".toList) = .error e ∧
      (loadWorker "toon" (SourceData.text ("a\nb|c\n".toList)) ("x.toon".toList) 1).recorded
        = { file := "x.toon".toList, time := none, rows := none } := by
  have hpack := toon_malformed_fails_safely ("a\nb|c\n".toList) ("x.toon".toList) 1
  obtain ⟨e, he⟩ := (hpack.2.1 ("a\n".toList) ["b|c\n".toList] (by decide)).mpr
    ⟨"b|c\n".toList, by decide, by decide⟩
  exact ⟨e, he, hpack.2.2 e he⟩

/-- C10 counterexample: on `"a|b\nc\n"` the second line has FEWER
'|'-separated fields than the first, yet the decode does not fail:
pandas pads the short row with a NaN cell, the load succeeds, and the
slot receives a successful record — refuting the claim that any field
count differing from the first line's makes the load fail. -/
theorem toon_short_line_counterexample :
    toonDecode ("a|b\nc\n".toList) =
      .ok { cols := [colName 0, colName 1],
            rows := [[Cell.pstr ("a".toList), Cell.pstr ("b".toList)],
                     [Cell.pstr ("c".toList), Cell.pnan]] } ∧
    (loadWorker "toon" (SourceData.text ("a|b\nc\n".toList)) ("x.toon".toList) 1).recorded
      = { file := "x.toon".toList, time := some 1, rows := some 2 } ∧
    ("c\n".toList).count '|' ≠ ("a|b\n".toList).count '|' :=
  ⟨by decide, by decide, by decide⟩

theorem recordUpsert_idem (k : String) (v : LoadRec) (l : Ledger) :
    recordUpsert k v (recordUpsert k v l) = recordUpsert k v l := by
  induction l with
  | nil => simp [recordUpsert]
  | cons p rest ih =>
    obtain ⟨k2, v2⟩ := p
    by_cases hk : k2 = k
    · simp [recordUpsert, hk]
    · simp [recordUpsert, hk, ih]

/-- C9: `ComparatorPanel.record` is idempotent: re-submitting an
identical LoadRecord leaves both the ledger (the `records` dict) and
the refreshed comparison table exactly as after the first submission. -/
theorem comparator_record_idempotent (fmtKey : String) (file : PyStr) (t : Option ℚ)
    (rows : Option Nat) (l : Ledger) :
    comparatorRecord fmtKey file t rows (comparatorRecord fmtKey file t rows l).1
      = comparatorRecord fmtKey file t rows l := by
  simp only [comparatorRecord]
  rw [recordUpsert_idem]

/-- C2: the timed-load worker is total: for every format key and every
source its decode outcome is either an error or a DataFrame (nothing
escapes the `try` block); on failure it hands the comparator a record
for that path with absent time and row fields plus a human-readable
log message; on success it records the elapsed time and row count.  In
particular a relational-store source with zero tables fails with the
`BD SQLite sem tabelas` error and yields a failed record. -/
theorem load_worker_never_throws (k : String) (src : SourceData) (path : PyStr)
    (elapsed : ℚ) (chosen : PyStr) :
    ((∃ e, decodeFor k src = .error e) ∨ (∃ df, decodeFor k src = .ok df)) ∧
    (∀ e, decodeFor k src = .error e →
      loadWorker k src path elapsed =
        { recorded := { file := path, time := none, rows := none },
          errMsg := some ("ERRO ao carregar: ".toList ++ e), df := none }) ∧
    (∀ df, decodeFor k src = .ok df →
      loadWorker k src path elapsed =
        { recorded := { file := path, time := some elapsed, rows := some df.rows.length },
          errMsg := none, df := some df }) ∧
    (decodeFor "sqlite" (SourceData.sqlite [] chosen)
      = .error ("BD SQLite sem tabelas".toList)) ∧
    ((loadWorker "sqlite" (SourceData.sqlite [] chosen) path elapsed).recorded
      = { file := path, time := none, rows := none }) := by
  refine ⟨?_, ?_, ?_, ?_, ?_⟩
  · cases h : decodeFor k src with
    | error e => exact Or.inl ⟨e, rfl⟩
    | ok df => exact Or.inr ⟨df, rfl⟩
  · intro e he
    exact loadWorker_recorded_error he
  · intro df hdf
    simp only [loadWorker, hdf]
  · rw [show decodeFor "sqlite" (SourceData.sqlite [] chosen)
        = loadSqlite [] chosen from by simp [decodeFor]]
    rfl
  · have h : decodeFor "sqlite" (SourceData.sqlite [] chosen)
        = .error ("BD SQLite sem tabelas".toList) := by
      rw [show decodeFor "sqlite" (SourceData.sqlite [] chosen)
          = loadSqlite [] chosen from by simp [decodeFor]]
      rfl
    rw [loadWorker_recorded_error h]

/-- Witness for `load_worker_never_throws` at a concrete failing input:
an unsupported format key is caught and recorded with absent fields. -/
theorem load_worker_never_throws_witness :
    loadWorker "xml" (SourceData.text ("a".toList)) ("f.xml".toList) 1 =
      { recorded := { file := "f.xml".toList, time := none, rows := none },
        errMsg := some ("ERRO ao carregar: ".toList ++ "Formato nao suportado".toList),
        df := none } :=
  (load_worker_never_throws "xml" (SourceData.text ("a".toList)) ("f.xml".toList) 1
    []).2.1 ("Formato nao suportado".toList) (by decide)

/-- C6 counterexample: a record with a present, nonzero elapsed time
(0.5s) but zero rows shows a BLANK throughput (Python's `if t and rows`
treats the zero row count as falsy), refuting "blank exactly when
elapsed is zero or absent". -/
theorem zero_rows_blank_speed_counterexample :
    speedOf { file := "x".toList, time := some (1/2), rows := some 0 } = none ∧
    (some (1/2) : Option ℚ) ≠ none ∧ (1/2 : ℚ) ≠ 0 := by
  refine ⟨by simp [speedOf], by simp, by norm_num⟩

/-- C6 (amended): the displayed throughput is `int(rows / t)` — the
quotient truncated toward zero, which on these nonnegative values is
the floor — when the elapsed time is present and nonzero AND the row
count is present and nonzero; it is blank when the elapsed time is
absent or zero OR the row count is absent or zero. -/
theorem throughput_rule (r : LoadRec) :
    (∀ t n, r.time = some t → r.rows = some n → t ≠ 0 → n ≠ 0 →
      speedOf r = some (pyInt ((n : ℚ) / t))) ∧
    (speedOf r = none ↔
      r.time = none ∨ r.time = some 0 ∨ r.rows = none ∨ r.rows = some 0) ∧
    (∀ t : ℚ, ∀ n : Nat, 0 < t → pyInt ((n : ℚ) / t) = ⌊(n : ℚ) / t⌋) := by
  refine ⟨?_, ?_, ?_⟩
  · intro t n ht hn ht0 hn0
    simp only [speedOf, ht, hn]
    rw [if_pos ⟨ht0, hn0⟩]
  · cases ht : r.time with
    | none => simp [speedOf, ht]
    | some t =>
      cases hn : r.rows with
      | none => simp [speedOf, ht, hn]
      | some n =>
        by_cases ht0 : t = 0
        · simp [speedOf, ht, hn, ht0]
        · by_cases hn0 : n = 0
          · simp [speedOf, ht, hn, ht0, hn0]
          · simp [speedOf, ht, hn, ht0, hn0]
  · intro t n ht
    rw [pyInt, if_pos (div_nonneg (by positivity) (le_of_lt ht))]

/-- Witness for `throughput_rule`: the spec's own scenario — 1000 rows
in 0.5s shows 2000 rows/s, 1000 rows in 0.2s shows 5000 rows/s. -/
theorem throughput_rule_witness :
    speedOf { file := "x".toList, time := some (1/2), rows := some 1000 } = some 2000 ∧
    speedOf { file := "y".toList, time := some (1/5), rows := some 1000 } = some 5000 := by
  constructor
  · rw [(throughput_rule { file := "x".toList, time := some (1/2), rows := some 1000 }).1
      (1/2) 1000 rfl rfl (by norm_num) (by norm_num),
      show ((1000 : ℕ) : ℚ) / (1/2) = 2000 from by norm_num]
    rw [pyInt, if_pos (by norm_num)]
    norm_num
  · rw [(throughput_rule { file := "y".toList, time := some (1/5), rows := some 1000 }).1
      (1/5) 1000 rfl rfl (by norm_num) (by norm_num),
      show ((1000 : ℕ) : ℚ) / (1/5) = 5000 from by norm_num]
    rw [pyInt, if_pos (by norm_num)]
    norm_num

/-- C7 counterexample: a row whose only cell is null matches the query
`None`: `astype(str)` coerces the null to the string "None" before the
case-insensitive containment test, refuting "rows all of whose cells
are null never match any query". -/
theorem null_cell_matches_counterexample :
    searchRun (some { cols := ["a".toList], rows := [[Cell.pnull]] }) ("None".toList)
      = .results [[Cell.pnull]] := by
  decide

/-- C7 (amended): for a loaded dataset and a query that strips to a
nonblank regex-literal term, a row is in the result iff the
case-insensitive string form of at least one of its cells contains the
term — where null cells are first coerced to the strings "None"/"nan"
by `astype(str)` and can therefore match. -/
theorem search_match_rule (d : Df) (raw : PyStr) (hq : pyStrip raw ≠ [])
    (_hre : (pyStrip raw).all Char.isAlphanum = true) :
    ∃ found, searchRun (some d) raw = .results found ∧
      ∀ row, row ∈ found ↔ row ∈ d.rows ∧ ∃ c ∈ row,
        ((pyStrip raw).map Char.toLower) <:+: ((cellStr c).map Char.toLower) := by
  refine ⟨d.rows.filter (rowMatches (pyStrip raw)), ?_, ?_⟩
  · simp only [searchRun, if_neg hq]
  · intro row
    rw [List.mem_filter]
    constructor
    · rintro ⟨hm, hr⟩
      refine ⟨hm, ?_⟩
      rw [rowMatches, List.any_eq_true] at hr
      obtain ⟨c, hc, hcm⟩ := hr
      rw [cellMatches, decide_eq_true_eq] at hcm
      exact ⟨c, hc, hcm⟩
    · rintro ⟨hm, c, hc, hcm⟩
      refine ⟨hm, ?_⟩
      rw [rowMatches, List.any_eq_true]
      exact ⟨c, hc, by rw [cellMatches, decide_eq_true_eq]; exact hcm⟩

/-- Witness for `search_match_rule`: searching `B` over two rows keeps
exactly the row containing cell "b" (case-insensitive). -/
theorem search_match_rule_witness :
    ∃ found, searchRun (some
        { cols := ["c".toList],
          rows := [[Cell.pstr ("a".toList)], [Cell.pstr ("b".toList)]] }) ("B".toList)
      = .results found ∧
      [Cell.pstr ("b".toList)] ∈ found ∧ ¬ [Cell.pstr ("a".toList)] ∈ found := by
  obtain ⟨found, hf, hiff⟩ := search_match_rule
    { cols := ["c".toList], rows := [[Cell.pstr ("a".toList)], [Cell.pstr ("b".toList)]] }
    ("B".toList) (by decide) (by decide)
  refine ⟨found, hf, ?_, ?_⟩
  · exact (hiff [Cell.pstr ("b".toList)]).mpr ⟨by decide, Cell.pstr ("b".toList),
      by decide, by decide⟩
  · intro hmem
    obtain ⟨-, c, hc, hcm⟩ := (hiff [Cell.pstr ("a".toList)]).mp hmem
    rcases List.mem_singleton.mp hc with rfl
    revert hcm
    decide

/-- C8: for every loaded dataset, a query that is empty or
whitespace-only (it strips to the empty string) yields the EmptyQuery
outcome: no search runs and no result set is produced. -/
theorem blank_query_empty_signal (d : Df) (raw : PyStr) (h : pyStrip raw = []) :
    searchRun (some d) raw = .emptyQuery := by
  simp only [searchRun, if_pos h]

/-- Witness for `blank_query_empty_signal` on a whitespace-only query. -/
theorem blank_query_empty_signal_witness :
    searchRun (some { cols := [], rows := [] }) ("  ".toList) = .emptyQuery :=
  blank_query_empty_signal { cols := [], rows := [] } ("  ".toList) (by decide)

theorem validTimes_fst_sublist (l : Ledger) :
    List.Sublist ((validTimes l).map Prod.fst) (l.map Prod.fst) := by
  induction l with
  | nil => simp [validTimes]
  | cons p rest ih =>
    cases ht : p.2.time with
    | none =>
      have hv : validTimes (p :: rest) = validTimes rest := by
        simp [validTimes, List.filterMap_cons, ht]
      rw [hv, List.map_cons]
      exact List.Sublist.cons p.1 (by simpa [validTimes] using ih)
    | some t =>
      have hv : validTimes (p :: rest) = (p.1, t) :: validTimes rest := by
        simp [validTimes, List.filterMap_cons, ht]
      rw [hv, List.map_cons, List.map_cons]
      exact List.Sublist.cons₂ p.1 (by simpa [validTimes] using ih)

theorem pair_sublist_of_lt {α : Type} {xs : List α} {i j : Nat} (hij : i < j)
    (hj : j < xs.length) :
    List.Sublist [xs.get ⟨i, lt_trans hij hj⟩, xs.get ⟨j, hj⟩] xs := by
  induction xs generalizing i j with
  | nil => simp at hj
  | cons a rest ih =>
    cases j with
    | zero => omega
    | succ j2 =>
      have hj2 : j2 < rest.length := by simpa using hj
      cases i with
      | zero =>
        refine List.Sublist.cons₂ a ?_
        refine List.singleton_sublist.mpr ?_
        exact rest.get_mem j2 hj2
      | succ i2 =>
        exact List.Sublist.cons a (ih (by omega) hj2)

theorem exists_get_of_pair_sublist {α : Type} {a b : α} {xs : List α}
    (h : List.Sublist [a, b] xs) :
    ∃ p q, ∃ hpq : p < q, ∃ hq : q < xs.length,
      xs.get ⟨p, lt_trans hpq hq⟩ = a ∧ xs.get ⟨q, hq⟩ = b := by
  induction xs with
  | nil => simp at h
  | cons x rest ih =>
    cases h with
    | cons _ h2 =>
      obtain ⟨p, q, hpq, hq, ha, hb⟩ := ih h2
      exact ⟨p + 1, q + 1, by omega, by simpa using hq, by simpa using ha,
        by simpa using hb⟩
    | cons₂ _ h2 =>
      have hbm : b ∈ rest := List.singleton_sublist.mp h2
      obtain ⟨⟨q, hq⟩, hbq⟩ := List.get_of_mem hbm
      exact ⟨0, q + 1, by omega, by simpa using hq, rfl, by simpa using hbq⟩

theorem fst_get_inj {xs : List (String × ℚ)} (hnd : (xs.map Prod.fst).Nodup)
    {p q : Nat} (hp : p < xs.length) (hq : q < xs.length)
    (h : (xs.get ⟨p, hp⟩).1 = (xs.get ⟨q, hq⟩).1) : p = q := by
  have hp2 : p < (xs.map Prod.fst).length := by simpa using hp
  have hq2 : q < (xs.map Prod.fst).length := by simpa using hq
  have hmp : (xs.map Prod.fst)[p] = (xs.map Prod.fst)[q] := by
    rw [List.getElem_map, List.getElem_map]
    exact h
  exact hnd.getElem_inj_iff.mp hmp

theorem orderedTimes_perm (l : Ledger) : (orderedTimes l).Perm (validTimes l) :=
  List.perm_insertionSort byTime (validTimes l)

theorem orderedTimes_sorted (l : Ledger) :
    (orderedTimes l).Pairwise (fun a b => a.2 ≤ b.2) :=
  List.sorted_insertionSort byTime (validTimes l)

theorem orderedTimes_fst_nodup {l : Ledger} (hnd : (l.map Prod.fst).Nodup) :
    ((orderedTimes l).map Prod.fst).Nodup :=
  ((orderedTimes_perm l).map Prod.fst).nodup_iff.mpr
    ((validTimes_fst_sublist l).nodup hnd)

theorem rankOf_at_sorted_pos {l : Ledger} (hnd : (l.map Prod.fst).Nodup)
    {k : Nat} (hk : k < (orderedTimes l).length) :
    rankOf l (((orderedTimes l).get ⟨k, hk⟩).1) = some (k + 1) := by
  have hndo := orderedTimes_fst_nodup hnd
  have hfind : (orderedTimes l).findIdx?
      (fun p => p.1 == ((orderedTimes l).get ⟨k, hk⟩).1) = some k := by
    rw [List.findIdx?_eq_some_iff_findIdx_eq]
    refine ⟨hk, ?_⟩
    rw [List.findIdx_eq hk]
    constructor
    · simp
    · intro j hj
      have hjlen : j < (orderedTimes l).length := lt_trans hj hk
      rw [beq_eq_false_iff_ne]
      intro he
      have : j = k := fst_get_inj hndo hjlen hk (by simpa using he)
      omega
  rw [rankOf, hfind]
  rfl

/-- C3: the ranking is computed only over records whose elapsed time
is present (a rank exists for a format key exactly when the ledger
holds a record for it with non-None time); the sorted list is a
permutation of those records, ascending in elapsed time; the record at
sorted position k gets rank k+1; and the sort is stable: whenever
record i precedes record j in insertion (dict) order and its elapsed
time is less than or equal — in particular equal, the tie case —
record i receives the strictly lower rank, deterministically. -/
theorem ranking_rule (l : Ledger) (hnd : (l.map Prod.fst).Nodup) :
    (∀ f : String, (rankOf l f).isSome ↔ ∃ p ∈ l, p.1 = f ∧ p.2.time.isSome) ∧
    ((orderedTimes l).Perm (validTimes l) ∧
      (orderedTimes l).Pairwise (fun a b => a.2 ≤ b.2)) ∧
    (∀ k : Nat, ∀ hk : k < (orderedTimes l).length,
      rankOf l (((orderedTimes l).get ⟨k, hk⟩).1) = some (k + 1)) ∧
    (∀ i j : Nat, ∀ hij : i < j, ∀ hj : j < (validTimes l).length,
      ((validTimes l).get ⟨i, lt_trans hij hj⟩).2 ≤ ((validTimes l).get ⟨j, hj⟩).2 →
      ∃ ri rj, rankOf l (((validTimes l).get ⟨i, lt_trans hij hj⟩).1) = some ri ∧
        rankOf l (((validTimes l).get ⟨j, hj⟩).1) = some rj ∧ ri < rj) := by
  refine ⟨?_, ⟨orderedTimes_perm l, orderedTimes_sorted l⟩,
    fun k hk => rankOf_at_sorted_pos hnd hk, ?_⟩
  · intro f
    constructor
    · intro hs
      rcases ho : (orderedTimes l).findIdx? (fun p => p.1 == f) with _ | k
      · rw [rankOf, ho] at hs
        simp at hs
      · rw [List.findIdx?_eq_some_iff_findIdx_eq] at ho
        obtain ⟨hk, hfi⟩ := ho
        rw [List.findIdx_eq hk] at hfi
        have h1 : ((orderedTimes l)[k]).1 = f := by simpa using hfi.1
        have hmem : (orderedTimes l)[k] ∈ validTimes l :=
          (orderedTimes_perm l).subset (List.getElem_mem hk)
        rw [validTimes, List.mem_filterMap] at hmem
        obtain ⟨p, hp, hmap⟩ := hmem
        rcases hmp : p.2.time with _ | t
        · rw [hmp] at hmap
          simp at hmap
        · rw [hmp] at hmap
          simp only [Option.map_some', Option.some.injEq] at hmap
          refine ⟨p, hp, ?_, by simp [hmp]⟩
          rw [← h1, ← hmap]
    · rintro ⟨p, hp, rfl, hsome⟩
      rcases hmp : p.2.time with _ | t
      · rw [hmp] at hsome
        simp at hsome
      · have hv : (p.1, t) ∈ validTimes l := by
          rw [validTimes, List.mem_filterMap]
          exact ⟨p, hp, by rw [hmp]; rfl⟩
        have ho : (p.1, t) ∈ orderedTimes l := (orderedTimes_perm l).mem_iff.mpr hv
        rcases hfind : (orderedTimes l).findIdx? (fun q => q.1 == p.1) with _ | k
        · rw [List.findIdx?_eq_none_iff] at hfind
          have := hfind (p.1, t) ho
          simp at this
        · rw [rankOf, hfind]
          simp
  · intro i j hij hj hle
    have hi := lt_trans hij hj
    have hpair : List.Pairwise byTime
        [(validTimes l).get ⟨i, hi⟩, (validTimes l).get ⟨j, hj⟩] :=
      List.pairwise_pair.mpr hle
    have hsub : List.Sublist
        [(validTimes l).get ⟨i, hi⟩, (validTimes l).get ⟨j, hj⟩] (validTimes l) :=
      pair_sublist_of_lt hij hj
    have hsub2 : List.Sublist
        [(validTimes l).get ⟨i, hi⟩, (validTimes l).get ⟨j, hj⟩] (orderedTimes l) :=
      List.sublist_insertionSort hpair hsub
    obtain ⟨p, q, hpq, hq2, ha, hb⟩ := exists_get_of_pair_sublist hsub2
    have hrp := rankOf_at_sorted_pos hnd (lt_trans hpq hq2)
    have hrq := rankOf_at_sorted_pos hnd hq2
    rw [ha] at hrp
    rw [hb] at hrq
    exact ⟨p + 1, q + 1, hrp, hrq, by omega⟩

/-- Witness for `ranking_rule`: two records with the SAME elapsed time
(1s); the first-recorded (`csv`) gets rank 1 and the second (`json`)
gets rank 2. -/
theorem ranking_rule_witness :
    rankOf [("csv", { file := "x".toList, time := some 1, rows := some 10 }),
            ("json", { file := "y".toList, time := some 1, rows := some 5 })] "csv"
      = some 1 ∧
    rankOf [("csv", { file := "x".toList, time := some 1, rows := some 10 }),
            ("json", { file := "y".toList, time := some 1, rows := some 5 })] "json"
      = some 2 := by
  constructor
  · exact (ranking_rule
      [("csv", { file := "x".toList, time := some 1, rows := some 10 }),
       ("json", { file := "y".toList, time := some 1, rows := some 5 })]
      (by decide)).2.2.1 0 (by decide)
  · exact (ranking_rule
      [("csv", { file := "x".toList, time := some 1, rows := some 10 }),
       ("json", { file := "y".toList, time := some 1, rows := some 5 })]
      (by decide)).2.2.1 1 (by decide)

theorem pyMinRun_mem (acc : String × ℚ) (xs : List (String × ℚ)) :
    pyMinRun acc xs ∈ acc :: xs := by
  induction xs generalizing acc with
  | nil => simp [pyMinRun]
  | cons x xs ih =>
    rw [show pyMinRun acc (x :: xs) = pyMinRun (if x.2 < acc.2 then x else acc) xs from rfl]
    rcases List.mem_cons.mp (ih (if x.2 < acc.2 then x else acc)) with h1 | h1
    · rw [h1]
      by_cases hc : x.2 < acc.2
      · simp [if_pos hc]
      · simp [if_neg hc]
    · simp [h1]

theorem pyMinRun_le (acc : String × ℚ) (xs : List (String × ℚ)) :
    ∀ y ∈ acc :: xs, (pyMinRun acc xs).2 ≤ y.2 := by
  induction xs generalizing acc with
  | nil =>
    intro y hy
    rcases List.mem_cons.mp hy with h | h
    · rw [h]
      exact le_refl _
    · cases h
  | cons x xs ih =>
    intro y hy
    rw [show pyMinRun acc (x :: xs) = pyMinRun (if x.2 < acc.2 then x else acc) xs from rfl]
    by_cases hc : x.2 < acc.2
    · rw [if_pos hc]
      rcases List.mem_cons.mp hy with h | h
      · rw [h]
        exact le_trans (ih x x (List.mem_cons_self x xs)) (le_of_lt hc)
      · exact ih x y h
    · rw [if_neg hc]
      rcases List.mem_cons.mp hy with h | h
      · rw [h]
        exact ih acc acc (List.mem_cons_self acc xs)
      · rcases List.mem_cons.mp h with h2 | h2
        · rw [h2]
          exact le_trans (ih acc acc (List.mem_cons_self acc xs)) (le_of_not_lt hc)
        · exact ih acc y (List.mem_cons_of_mem acc h2)

theorem pyMaxRun_mem (acc : String × ℚ) (xs : List (String × ℚ)) :
    pyMaxRun acc xs ∈ acc :: xs := by
  induction xs generalizing acc with
  | nil => simp [pyMaxRun]
  | cons x xs ih =>
    rw [show pyMaxRun acc (x :: xs) = pyMaxRun (if acc.2 < x.2 then x else acc) xs from rfl]
    rcases List.mem_cons.mp (ih (if acc.2 < x.2 then x else acc)) with h1 | h1
    · rw [h1]
      by_cases hc : acc.2 < x.2
      · simp [if_pos hc]
      · simp [if_neg hc]
    · simp [h1]

theorem pyMaxRun_ge (acc : String × ℚ) (xs : List (String × ℚ)) :
    ∀ y ∈ acc :: xs, y.2 ≤ (pyMaxRun acc xs).2 := by
  induction xs generalizing acc with
  | nil =>
    intro y hy
    rcases List.mem_cons.mp hy with h | h
    · rw [h]
      exact le_refl _
    · cases h
  | cons x xs ih =>
    intro y hy
    rw [show pyMaxRun acc (x :: xs) = pyMaxRun (if acc.2 < x.2 then x else acc) xs from rfl]
    by_cases hc : acc.2 < x.2
    · rw [if_pos hc]
      rcases List.mem_cons.mp hy with h | h
      · rw [h]
        exact le_trans (le_of_lt hc) (ih x x (List.mem_cons_self x xs))
      · exact ih x y h
    · rw [if_neg hc]
      rcases List.mem_cons.mp hy with h | h
      · rw [h]
        exact ih acc acc (List.mem_cons_self acc xs)
      · rcases List.mem_cons.mp h with h2 | h2
        · rw [h2]
          exact le_trans (le_of_not_lt hc) (ih acc acc (List.mem_cons_self acc xs))
        · exact ih acc y (List.mem_cons_of_mem acc h2)

theorem refresh_eq_of_valid {l : Ledger} {v : String × ℚ} {vs : List (String × ℚ)}
    (hv : validTimes l = v :: vs) :
    refresh l = fourFmts.map (displaySlot l (pyMinRun v vs).1 (pyMaxRun v vs).1) := by
  simp only [refresh, hv]

theorem refresh_eq_nil_of_valid_nil {l : Ledger} (hv : validTimes l = []) :
    refresh l = [] := by
  simp only [refresh, hv]

theorem displaySlot_tag {l : Ledger} {fastF slowF fmt : String} {r : LoadRec}
    (h : lookupRec l fmt = some r) :
    ((displaySlot l fastF slowF fmt).tag = "fastest" ↔ fmt = fastF) ∧
    ((displaySlot l fastF slowF fmt).tag = "slowest" ↔ fmt = slowF ∧ fmt ≠ fastF) := by
  simp only [displaySlot, h]
  by_cases h1 : fmt = fastF
  · simp [h1]
  · by_cases h2 : fmt = slowF
    · simp [h1, h2]
    · simp [h1, h2]

/-- C4 (amended): in a snapshot with at least one ranked record, the
`fastest`-tagged slot is the format picked by Python's `min` — a record
with minimal present elapsed time — and a recorded slot is tagged
`slowest` iff it is the format picked by `max` — a record with maximal
present elapsed time — AND it differs from the fastest format: the
`elif` gives a slot only one tag, so when exactly one record has a
present time (min and max coincide) it is tagged `fastest` only, never
both. -/
theorem fastest_slowest_tags (l : Ledger) (v : String × ℚ) (vs : List (String × ℚ))
    (hv : validTimes l = v :: vs) :
    (pyMinRun v vs ∈ validTimes l ∧ ∀ x ∈ validTimes l, (pyMinRun v vs).2 ≤ x.2) ∧
    (pyMaxRun v vs ∈ validTimes l ∧ ∀ x ∈ validTimes l, x.2 ≤ (pyMaxRun v vs).2) ∧
    refresh l = fourFmts.map (displaySlot l (pyMinRun v vs).1 (pyMaxRun v vs).1) ∧
    (∀ fmt r, lookupRec l fmt = some r →
      (((displaySlot l (pyMinRun v vs).1 (pyMaxRun v vs).1 fmt).tag = "fastest"
          ↔ fmt = (pyMinRun v vs).1) ∧
       ((displaySlot l (pyMinRun v vs).1 (pyMaxRun v vs).1 fmt).tag = "slowest"
          ↔ fmt = (pyMaxRun v vs).1 ∧ fmt ≠ (pyMinRun v vs).1))) := by
  refine ⟨⟨?_, ?_⟩, ⟨?_, ?_⟩, refresh_eq_of_valid hv, ?_⟩
  · rw [hv]
    exact pyMinRun_mem v vs
  · rw [hv]
    exact pyMinRun_le v vs
  · rw [hv]
    exact pyMaxRun_mem v vs
  · rw [hv]
    exact pyMaxRun_ge v vs
  · intro fmt r h
    exact displaySlot_tag h

/-- C4 counterexample: with exactly one record holding a present
elapsed time (1s), that record is also the one with the largest
present elapsed time, yet the `elif` in `_refresh` gives its row only
the `fastest` tag — it is NOT tagged `slowest`, refuting the claim that
a sole ranked record carries both tags simultaneously. -/
theorem sole_record_not_tagged_slowest :
    (refresh [("csv", { file := "x".toList, time := some 1, rows := some 10 })]).map
      (fun row => (row.fmt, row.tag))
    = [("sqlite", ""), ("csv", "fastest"), ("json", ""), ("toon", "")] := by
  decide

/-- Witness for `fastest_slowest_tags`: csv loads in 1s, json in 2s;
the csv slot is tagged fastest and the json slot slowest. -/
theorem fastest_slowest_tags_witness :
    (displaySlot
        [("csv", { file := "x".toList, time := some 1, rows := some 10 }),
         ("json", { file := "y".toList, time := some 2, rows := some 5 })]
        "csv" "json" "csv").tag = "fastest" ∧
    (displaySlot
        [("csv", { file := "x".toList, time := some 1, rows := some 10 }),
         ("json", { file := "y".toList, time := some 2, rows := some 5 })]
        "csv" "json" "json").tag = "slowest" := by
  have h := fastest_slowest_tags
    [("csv", { file := "x".toList, time := some 1, rows := some 10 }),
     ("json", { file := "y".toList, time := some 2, rows := some 5 })]
    ("csv", 1) [("json", 2)] (by decide)
  constructor
  · exact ((h.2.2.2 "csv" { file := "x".toList, time := some 1, rows := some 10 }
      (by decide)).1).mpr (by decide)
  · exact ((h.2.2.2 "json" { file := "y".toList, time := some 2, rows := some 5 }
      (by decide)).2).mpr (by decide)

theorem lookupRec_mem_iff {l : Ledger} (hnd : (l.map Prod.fst).Nodup) {f : String}
    {r : LoadRec} : lookupRec l f = some r ↔ (f, r) ∈ l := by
  induction l with
  | nil => simp [lookupRec]
  | cons p rest ih =>
    obtain ⟨k2, v2⟩ := p
    rw [List.map_cons, List.nodup_cons] at hnd
    by_cases hp : k2 = f
    · subst hp
      rw [lookupRec, List.find?_cons_of_pos _ (by simp)]
      simp only [Option.map_some', Option.some.injEq]
      constructor
      · intro h
        rw [← h]
        exact List.mem_cons_self _ _
      · intro h
        rcases List.mem_cons.mp h with h2 | h2
        · simp only [Prod.mk.injEq, true_and] at h2
          exact h2.symm
        · exact absurd (List.mem_map_of_mem Prod.fst h2) hnd.1
    · rw [lookupRec, List.find?_cons_of_neg _ (by simp [hp])]
      rw [show (List.find? (fun q => q.1 == f) rest).map Prod.snd = lookupRec rest f
        from rfl]
      rw [ih hnd.2]
      constructor
      · exact fun h => List.mem_cons_of_mem _ h
      · intro h
        rcases List.mem_cons.mp h with h2 | h2
        · simp only [Prod.mk.injEq] at h2
          exact absurd h2.1.symm hp
        · exact h2

theorem rankOf_eq_none_of_failed {l : Ledger} (hnd : (l.map Prod.fst).Nodup)
    {f : String} {r : LoadRec} (hlk : lookupRec l f = some r) (ht : r.time = none) :
    rankOf l f = none := by
  rw [rankOf, Option.map_eq_none', List.findIdx?_eq_none_iff]
  intro x hx
  rw [beq_eq_false_iff_ne]
  intro hxf
  have hxv : x ∈ validTimes l := (orderedTimes_perm l).subset hx
  rw [validTimes, List.mem_filterMap] at hxv
  obtain ⟨p, hp, hmap⟩ := hxv
  rcases hmp : p.2.time with _ | t
  · rw [hmp] at hmap
    simp at hmap
  · rw [hmp] at hmap
    simp only [Option.map_some', Option.some.injEq] at hmap
    have hpf : p.1 = f := by rw [← hxf, ← hmap]
    have hpmem : (f, p.2) ∈ l := by
      rw [← hpf]
      exact hp
    have hlk2 := (lookupRec_mem_iff hnd).mpr hpmem
    have h3 : p.2 = r := by simpa using hlk2.symm.trans hlk
    rw [h3, ht] at hmp
    cases hmp

/-- C5 (amended): provided at least one record has a present elapsed
time, `_refresh` displays one row per fixed format slot (so a slot
whose LoadRecord has absent time/row fields still appears), and every
failed slot's row has blank time, blank throughput and blank rank; but
when NO record has a present time `_refresh` returns early and even
failed slots are omitted (nothing is displayed at all). -/
theorem failed_slots_displayed (l : Ledger) (hnd : (l.map Prod.fst).Nodup)
    (v : String × ℚ) (vs : List (String × ℚ)) (hv : validTimes l = v :: vs) :
    ((refresh l).map DisplayRow.fmt = fourFmts) ∧
    (∀ fmt r, fmt ∈ fourFmts → lookupRec l fmt = some r → r.time = none →
      ∃ row ∈ refresh l, row.fmt = fmt ∧ row.time = none ∧
        row.speed = none ∧ row.rank = none) := by
  constructor
  · rw [refresh_eq_of_valid hv, List.map_map]
    have hcong : ∀ f ∈ fourFmts,
        (DisplayRow.fmt ∘ displaySlot l (pyMinRun v vs).1 (pyMaxRun v vs).1) f
          = id f := by
      intro f hf
      simp only [Function.comp_apply, id_eq]
      cases hlk : lookupRec l f with
      | none => simp [displaySlot, hlk]
      | some r => simp [displaySlot, hlk]
    rw [List.map_congr_left hcong, List.map_id]
  · intro fmt r hfour hlk htime
    refine ⟨displaySlot l (pyMinRun v vs).1 (pyMaxRun v vs).1 fmt, ?_, ?_, ?_, ?_, ?_⟩
    · rw [refresh_eq_of_valid hv]
      exact List.mem_map_of_mem _ hfour
    · simp [displaySlot, hlk]
    · simp [displaySlot, hlk, htime]
    · simp [displaySlot, hlk, speedOf, htime]
    · simp only [displaySlot, hlk]
      exact rankOf_eq_none_of_failed hnd hlk htime

/-- C5 counterexample: when every recorded slot is a failed load,
`_refresh` returns before inserting any row: with a single failed csv
record the comparison table shows NO rows at all — the failed slot is
omitted rather than displayed with blank derived fields. -/
theorem all_failed_displays_nothing_counterexample :
    refresh [("csv", { file := "x".toList, time := none, rows := none })] = [] := by
  decide

/-- Witness for `failed_slots_displayed`: csv loaded in 1s, json
failed; the json slot still appears as a row with blank time,
throughput and rank. -/
theorem failed_slots_displayed_witness :
    ∃ row ∈ refresh [("csv", { file := "x".toList, time := some 1, rows := some 10 }),
        ("json", { file := "y".toList, time := none, rows := none })],
      row.fmt = "json" ∧ row.time = none ∧ row.speed = none ∧ row.rank = none :=
  (failed_slots_displayed
    [("csv", { file := "x".toList, time := some 1, rows := some 10 }),
     ("json", { file := "y".toList, time := none, rows := none })]
    (by decide) ("csv", 1) [] (by decide)).2 "json"
    { file := "y".toList, time := none, rows := none } (by decide) (by decide) rfl
